import Mathlib

/-!
Shallow embedding of the interference-graph core of the register allocator
(`src/opt/regalloc/Interference.h`), namespaces `regalloc` / `regalloc::interference`.

Conventions of the embedding:
* `reg_t` (a `uint16_t`) is modelled as `Nat`; none of the verified operations
  perform arithmetic on register ids, so no wraparound modelling is needed.
* `IRInstruction*` identity is modelled as a `Nat` id.
* `std::unordered_map` is modelled as an association list queried by
  `tableLookup` (first matching key wins; the operations below keep at most one
  entry per key, mirroring the unique-key property of `unordered_map`).
* `std::unordered_set` is modelled as a list queried by membership.
* `LivenessDomain` (an external collaborator) is modelled as a set-like list of
  register ids, which is all the graph stores and returns.
* Functions whose bodies live in `Interference.cpp` (not part of the sources)
  are modelled from the specification; each such definition has a doc comment
  starting with `Modelled from the spec:`.
-/

/-- Association-list lookup with decidable key equality, mirroring
`std::unordered_map::find` (at most one entry per key is ever stored). -/
def tableLookup {α β : Type} [DecidableEq α] : List (α × β) → α → Option β
  | [], _ => none
  | (k, x) :: rest, a => if k = a then some x else tableLookup rest a

/-- Keys of an association list. -/
def keysOf {α β : Type} (l : List (α × β)) : List α := l.map Prod.fst

/-- Source helper `max_unsigned_value(bits)`: the largest unsigned value of the
given bit width. -/
def max_unsigned_value (bits : Nat) : Nat := 2 ^ bits - 1

/-- The register-type lattice elements used by `RegisterTypeDomain`
(external collaborator `RegisterType.h`; the graph only stores and returns the
element, starting from `RegisterType::UNKNOWN`). -/
inductive RegisterType where
  | UNKNOWN
  | ZERO
  | NORMAL
  | OBJECT
  | WIDE
  | CONFLICT
deriving DecidableEq

/-- `regalloc::RangeSet`: a set of instructions (identified by id) that tracks
insertion order, backed by a vector (`m_range_vec`) and a membership set
(`m_range_set`). -/
structure RangeSet where
  m_range_vec : List Nat
  m_range_set : List Nat
deriving DecidableEq

/-- `RangeSet::contains`: membership query against `m_range_set`. -/
def RangeSet.contains (s : RangeSet) (insn : Nat) : Bool :=
  decide (insn ∈ s.m_range_set)

/-- `RangeSet::emplace`: inserts `insn` into both the vector and the set if
absent; a no-op when `contains` already holds. -/
def RangeSet.emplace (s : RangeSet) (insn : Nat) : RangeSet :=
  if s.contains insn then s
  else ⟨s.m_range_vec ++ [insn], insn :: s.m_range_set⟩

/-- `RangeSet::size`: the number of stored instructions (`m_range_vec.size()`). -/
def RangeSet.size (s : RangeSet) : Nat := s.m_range_vec.length

/-- The empty `RangeSet` (default construction). -/
def RangeSet.empty : RangeSet := ⟨[], []⟩

/-- `impl::OrderedPair<reg_t>`: a pair canonicalized by the constructor to
`(min u v, max u v)`. -/
structure OrderedPair where
  first : Nat
  second : Nat
deriving DecidableEq

/-- The `OrderedPair(u, v)` constructor: stores `(min u v, max u v)`. -/
def OrderedPair.make (u v : Nat) : OrderedPair := ⟨min u v, max u v⟩

/-- `interference::Node`: per-register metadata.  The C++ `std::bitset` of
properties is modelled as four named booleans. -/
structure Node where
  m_weight : Nat
  m_max_vreg : Nat
  m_width : Nat
  m_param : Bool
  m_range : Bool
  m_spill : Bool
  m_active : Bool
  m_type_domain : RegisterType
  m_adjacent : List Nat
deriving DecidableEq

/-- The `Node()` constructor: all fields take their member-initializer
defaults (`m_weight = 0`, `m_max_vreg = max_unsigned_value(16)`, `m_width = 0`,
all property bits clear, `m_type_domain = UNKNOWN`, empty adjacency), then the
constructor body sets the `ACTIVE` bit. -/
def Node.new : Node :=
  { m_weight := 0
    m_max_vreg := max_unsigned_value 16
    m_width := 0
    m_param := false
    m_range := false
    m_spill := false
    m_active := true
    m_type_domain := RegisterType.UNKNOWN
    m_adjacent := [] }

/-- `Node::width`. -/
def Node.width (n : Node) : Nat := n.m_width

/-- `Node::is_spilt`. -/
def Node.is_spilt (n : Node) : Bool := n.m_spill

/-- `Node::is_active`. -/
def Node.is_active (n : Node) : Bool := n.m_active

/-- `Node::is_param`. -/
def Node.is_param (n : Node) : Bool := n.m_param

/-- `Node::is_range`. -/
def Node.is_range (n : Node) : Bool := n.m_range

/-- `Node::weight`. -/
def Node.weight (n : Node) : Nat := n.m_weight

/-- `Node::max_vreg`. -/
def Node.max_vreg (n : Node) : Nat := n.m_max_vreg

/-- `Node::type`: the element of the register-type domain. -/
def Node.type (n : Node) : RegisterType := n.m_type_domain

/-- `Node::adjacent`. -/
def Node.adjacent (n : Node) : List Nat := n.m_adjacent

/-- `interference::Graph`: node table, canonical adjacency matrix with the
"not coalesceable" marker, directed containment edges, and the range-liveness
side table. -/
structure Graph where
  m_nodes : List (Nat × Node)
  m_adj_matrix : List (OrderedPair × Bool)
  m_containment_graph : List (Nat × Nat)
  m_range_liveness : List (Nat × List Nat)
deriving DecidableEq

/-- The empty graph (`Graph()` default construction, exposed through
`GraphBuilder::create_empty`). -/
def Graph.empty : Graph := ⟨[], [], [], []⟩

/-- `Graph::is_adjacent(u, v)`: whether the canonical edge is present in
`m_adj_matrix`. -/
def Graph.is_adjacent (g : Graph) (u v : Nat) : Bool :=
  (tableLookup g.m_adj_matrix (OrderedPair.make u v)).isSome

/-- `Graph::is_coalesceable(u, v)`:
`!is_adjacent(u, v) || !m_adj_matrix.at(Edge(u, v))`.  The short-circuit
guarantees `at` is only reached when the edge exists, so the stored marker is
read with a default that is never observed. -/
def Graph.is_coalesceable (g : Graph) (u v : Nat) : Bool :=
  !g.is_adjacent u v ||
    !((tableLookup g.m_adj_matrix (OrderedPair.make u v)).getD false)

/-- `Graph::has_containment_edge(u, v)`: directed membership query. -/
def Graph.has_containment_edge (g : Graph) (u v : Nat) : Bool :=
  decide ((u, v) ∈ g.m_containment_graph)

/-- `Graph::get_liveness(insn)`: `m_range_liveness.at(insn)`; the C++ `at`
throws when the key is absent, modelled as `none`. -/
def Graph.get_liveness (g : Graph) (insn : Nat) : Option (List Nat) :=
  tableLookup g.m_range_liveness insn

/-- `Graph::add_containment_edge(u, v)`: refuses a self-edge, otherwise
inserts the ordered pair into the containment set (set semantics: inserting a
present pair is a no-op). -/
def Graph.add_containment_edge (g : Graph) (u v : Nat) : Graph :=
  if u = v then g
  else if (u, v) ∈ g.m_containment_graph then g
  else { g with m_containment_graph := (u, v) :: g.m_containment_graph }

/-- The node stored for register `r`, or a default-constructed node when `r`
was never created (mirrors reading through the node table). -/
def Graph.nodeOf (g : Graph) (r : Nat) : Node :=
  (tableLookup g.m_nodes r).getD Node.new

/-- The adjacency list of register `r`. -/
def Graph.adjacentOf (g : Graph) (r : Nat) : List Nat :=
  (g.nodeOf r).m_adjacent

/-- `Graph::active_nodes()`: the lazily filtered view of the node table
containing exactly the entries whose node is `ACTIVE`. -/
def Graph.active_nodes (g : Graph) : List (Nat × Node) :=
  g.m_nodes.filter (fun p => p.2.is_active)

/-- `impl::div_ceil(a, b)`: `(a + b - 1) / b` over `uint32_t`; the unsigned
subtraction wraps modulo `2^32`, modelled by adding `2^32 - 1` and reducing. -/
def div_ceil (a b : Nat) : Nat := ((a + b + (2 ^ 32 - 1)) % 2 ^ 32) / b

/-- Update the node stored under key `k` (all entries with that key; the
operations below keep keys unique, so at most one entry is touched). -/
def mapNode (nodes : List (Nat × Node)) (k : Nat) (f : Node → Node) :
    List (Nat × Node) :=
  nodes.map (fun p => if p.1 = k then (p.1, f p.2) else p)

/-- Drop every entry stored under the canonical edge `e`. -/
def eraseKey (m : List (OrderedPair × Bool)) (e : OrderedPair) :
    List (OrderedPair × Bool) :=
  match m with
  | [] => []
  | (k, x) :: rest => if k = e then eraseKey rest e else (k, x) :: eraseKey rest e

/-- Store marker `b` for the canonical edge `e`, keeping a single entry for
that edge (the map-assignment `m_adj_matrix[e] = b`). -/
def setEdge (m : List (OrderedPair × Bool)) (e : OrderedPair) (b : Bool) :
    List (OrderedPair × Bool) :=
  (e, b) :: eraseKey m e

/-- Modelled from the spec: `GraphBuilder::make_node` (body in
`Interference.cpp`, absent from the sources).  Creates one fresh node for
register `r` — fresh nodes always start `ACTIVE` (the `Node()` constructor) —
seeding its register type and `max_vreg`; the builder never creates the same
register twice, so an existing entry is left untouched. -/
def GraphBuilder.make_node (g : Graph) (r : Nat) (t : RegisterType)
    (maxv : Nat) : Graph :=
  if r ∈ keysOf g.m_nodes then g
  else
    { g with
      m_nodes :=
        g.m_nodes ++
          [(r, { Node.new with m_type_domain := t, m_max_vreg := maxv })] }

/-- Modelled from the spec: `Graph::add_edge(u, v, can_coalesce)` (body in
`Interference.cpp`, absent from the sources).  Refuses self-edges; stores the
edge once in canonical form, accumulating the "not coalesceable" marker as a
logical OR (an edge recorded as not coalesceable stays so); on the first
insertion each endpoint is appended to the other's adjacency list. -/
def Graph.add_edge (g : Graph) (u v : Nat) (can_coalesce : Bool) : Graph :=
  if u = v then g
  else
    let e := OrderedPair.make u v
    let old := (tableLookup g.m_adj_matrix e).getD false
    let nodes :=
      if g.is_adjacent u v then g.m_nodes
      else
        mapNode (mapNode g.m_nodes u (fun n => { n with m_adjacent := n.m_adjacent ++ [v] }))
          v (fun n => { n with m_adjacent := n.m_adjacent ++ [u] })
    { g with
      m_nodes := nodes
      m_adj_matrix := setEdge g.m_adj_matrix e (old || !can_coalesce) }

/-- `Graph::add_coalesceable_edge(u, v)`: `add_edge(u, v, true)`. -/
def Graph.add_coalesceable_edge (g : Graph) (u v : Nat) : Graph :=
  g.add_edge u v true

/-- Modelled from the spec: `Graph::remove_node(r)` (body in
`Interference.cpp`, absent from the sources).  Clears `ACTIVE` on the node and
removes `r` from the adjacency lists of its neighbors (removing from a list
that does not hold `r` is a no-op, so the operation is idempotent); the node
record itself — including its own adjacency list — stays in the table. -/
def removeTransform (r : Nat) (p : Nat × Node) : Nat × Node :=
  if p.1 = r then (p.1, { p.2 with m_active := false })
  else (p.1, { p.2 with m_adjacent := p.2.m_adjacent.filter (fun x => decide (x ≠ r)) })

/-- Modelled from the spec (see `removeTransform`): `Graph::remove_node`
applies the per-entry action across the node table. -/
def Graph.remove_node (g : Graph) (r : Nat) : Graph :=
  { g with m_nodes := g.m_nodes.map (removeTransform r) }

/-! Modelled from the spec: `Graph::combine(u, v)` (body in
`Interference.cpp`, absent from the sources).  Coalesces `v` into `u`: every
neighbor `w` of `v` becomes a neighbor of `u` (appended only when absent, so
lists stay deduplicated; the merged edge marker is the logical OR of the two
"not coalesceable" markers), `v` is marked inactive, and every containment
edge referencing `v` is repointed to `u` (re-inserted through the self-edge
refusal of `add_containment_edge`). -/
/-- The deduplicating transfer of `v`'s neighbor list onto `u`'s: each
neighbor of `v` other than `u` itself is appended unless already present. -/
def combineAdjFold (u : Nat) (uAdj vAdj : List Nat) : List Nat :=
  vAdj.foldl (fun l w => if w = u ∨ w ∈ l then l else l ++ [w]) uAdj

/-- One step of the marker merge in `combine`: for a neighbor `w` of `v`
(skipping `u` itself), the canonical edge `u–w` receives the logical OR of
its current marker and the marker of `v–w` in the original matrix. -/
def combineMatrixStep (g : Graph) (u v : Nat)
    (m : List (OrderedPair × Bool)) (w : Nat) : List (OrderedPair × Bool) :=
  if w = u then m
  else
    setEdge m (OrderedPair.make u w)
      (((tableLookup m (OrderedPair.make u w)).getD false) ||
        ((tableLookup g.m_adj_matrix (OrderedPair.make v w)).getD false))

/-- The adjacency matrix after `combine(u, v)`. -/
def combineMatrix (g : Graph) (u v : Nat) : List (OrderedPair × Bool) :=
  List.foldl (combineMatrixStep g u v) g.m_adj_matrix (g.adjacentOf v)

/-- One step of the reverse adjacency update in `combine`: each neighbor `w`
of `v` (other than `u`) gets `u` appended to its list when absent. -/
def combineNodesStep (u : Nat) (ns : List (Nat × Node)) (w : Nat) :
    List (Nat × Node) :=
  if w = u then ns
  else
    mapNode ns w (fun n =>
      if u ∈ n.m_adjacent then n
      else { n with m_adjacent := n.m_adjacent ++ [u] })

/-- The node table after `combine(u, v)`: `u` absorbs `v`'s neighbors, those
neighbors list `u`, and `v` is marked inactive. -/
def combineNodes (g : Graph) (u v : Nat) : List (Nat × Node) :=
  mapNode
    (List.foldl (combineNodesStep u)
      (mapNode g.m_nodes u
        (fun n =>
          { n with m_adjacent := combineAdjFold u n.m_adjacent (g.adjacentOf v) }))
      (g.adjacentOf v))
    v (fun n => { n with m_active := false })

/-- Repoint one containment edge: occurrences of `v` become `u`, and the
result is re-inserted through the same refusals as `add_containment_edge`
(no self-edge, no duplicate). -/
def repointStep (u v : Nat) (e : Nat × Nat) (acc : List (Nat × Nat)) :
    List (Nat × Nat) :=
  if (if e.1 = v then u else e.1) = (if e.2 = v then u else e.2) then acc
  else if ((if e.1 = v then u else e.1), (if e.2 = v then u else e.2)) ∈ acc then acc
  else ((if e.1 = v then u else e.1), (if e.2 = v then u else e.2)) :: acc

/-- Repoint every containment edge referencing `v` to `u`. -/
def combineRepoint (u v : Nat) (l : List (Nat × Nat)) : List (Nat × Nat) :=
  l.foldr (repointStep u v) []

/-- Modelled from the spec (assembled from the pieces above):
`Graph::combine(u, v)` coalesces `v` into `u`. -/
def Graph.combine (g : Graph) (u v : Nat) : Graph :=
  { g with
    m_nodes := combineNodes g u v
    m_adj_matrix := combineMatrix g u v
    m_containment_graph := combineRepoint u v g.m_containment_graph }

/-- Graphs reachable from the empty graph through the construction and
simplification operations (the builder's node/edge insertion and the
allocator's `remove_node` / `combine`, the latter under its documented
`is_coalesceable` precondition). -/
inductive Built : Graph → Prop where
  | empty : Built Graph.empty
  | make_node (g : Graph) (r : Nat) (t : RegisterType) (maxv : Nat) :
      Built g → Built (GraphBuilder.make_node g r t maxv)
  | add_edge (g : Graph) (u v : Nat) (c : Bool) :
      Built g → Built (g.add_edge u v c)
  | add_containment_edge (g : Graph) (u v : Nat) :
      Built g → Built (g.add_containment_edge u v)
  | remove_node (g : Graph) (r : Nat) :
      Built g → Built (g.remove_node r)
  | combine (g : Graph) (u v : Nat) :
      g.is_coalesceable u v = true → Built g → Built (g.combine u v)

/-- A small concrete graph used to instantiate the verified properties:
registers 1 and 2 interfere non-coalesceably, register 3 contains register 1,
and instruction 10 has a recorded liveness snapshot. -/
def gSample : Graph :=
  { m_nodes :=
      [(0, Node.new),
       (1, { Node.new with m_adjacent := [2] }),
       (2, { Node.new with m_adjacent := [1] })]
    m_adj_matrix := [(OrderedPair.make 1 2, true)]
    m_containment_graph := [(3, 1)]
    m_range_liveness := [(10, [0, 1])] }

lemma OrderedPair.make_comm (u v : Nat) :
    OrderedPair.make u v = OrderedPair.make v u := by
  simp [OrderedPair.make, Nat.min_comm, Nat.max_comm]

lemma tableLookup_eq_none {α β : Type} [DecidableEq α]
    (l : List (α × β)) (a : α) (h : a ∉ keysOf l) : tableLookup l a = none := by
  induction l with
  | nil => rfl
  | cons p rest ih =>
    obtain ⟨k, x⟩ := p
    simp only [keysOf, List.map_cons, List.mem_cons] at h
    push_neg at h
    have hka : k ≠ a := fun hk => h.1 hk.symm
    simp only [tableLookup, if_neg hka]
    exact ih (by simpa [keysOf] using h.2)

lemma tableLookup_of_mem {α β : Type} [DecidableEq α]
    (l : List (α × β)) (a : α) (b : β)
    (hnd : (keysOf l).Nodup) (hmem : (a, b) ∈ l) : tableLookup l a = some b := by
  induction l with
  | nil => cases hmem
  | cons p rest ih =>
    obtain ⟨k, x⟩ := p
    simp only [keysOf, List.map_cons, List.nodup_cons] at hnd
    rcases List.mem_cons.mp hmem with h | h
    · obtain ⟨rfl, rfl⟩ := Prod.mk.injEq _ _ _ _ ▸ h
      simp [tableLookup]
    · have hka : k ≠ a := by
        rintro rfl
        exact hnd.1 (by simpa [keysOf] using List.mem_map_of_mem Prod.fst h)
      simp only [tableLookup, if_neg hka]
      exact ih hnd.2 h

lemma tableLookup_setEdge_self (m : List (OrderedPair × Bool))
    (e : OrderedPair) (b : Bool) : tableLookup (setEdge m e b) e = some b := by
  simp [setEdge, tableLookup]

lemma tableLookup_eraseKey (m : List (OrderedPair × Bool)) (e' e : OrderedPair)
    (hne : e ≠ e') : tableLookup (eraseKey m e') e = tableLookup m e := by
  induction m with
  | nil => rfl
  | cons p rest ih =>
    obtain ⟨k, x⟩ := p
    by_cases hk : k = e'
    · have h2 : e' ≠ e := fun h => hne h.symm
      simp [eraseKey, tableLookup, hk, h2, ih]
    · simp only [eraseKey, if_neg hk, tableLookup]
      by_cases hke : k = e
      · simp [hke]
      · simp [hke, ih]

lemma tableLookup_setEdge_other (m : List (OrderedPair × Bool))
    (e e' : OrderedPair) (b : Bool) (hne : e ≠ e') :
    tableLookup (setEdge m e' b) e = tableLookup m e := by
  have h : e' ≠ e := fun h => hne h.symm
  simp only [setEdge, tableLookup, if_neg h]
  exact tableLookup_eraseKey m e' e hne

lemma tableLookup_mapNode (ns : List (Nat × Node)) (k : Nat) (f : Node → Node)
    (j : Nat) :
    tableLookup (mapNode ns k f) j =
      if j = k then (tableLookup ns j).map f else tableLookup ns j := by
  induction ns with
  | nil => by_cases h : j = k <;> simp [mapNode, tableLookup, h]
  | cons p rest ih =>
    obtain ⟨a, n⟩ := p
    by_cases hak : a = k
    · have hmap : mapNode ((a, n) :: rest) k f = (a, f n) :: mapNode rest k f := by
        simp [mapNode, hak]
      rw [hmap]
      by_cases haj : a = j
      · have hjk : j = k := by rw [← haj, hak]
        simp [tableLookup, haj, hjk]
      · simp [tableLookup, haj, ih]
    · have hmap : mapNode ((a, n) :: rest) k f = (a, n) :: mapNode rest k f := by
        simp [mapNode, hak]
      rw [hmap]
      by_cases haj : a = j
      · have hjk : ¬(j = k) := fun h => hak (haj.trans h)
        simp [tableLookup, haj, hjk]
      · simp [tableLookup, haj, ih]

/-- C9: a default-constructed `Node` has `max_vreg = 65535` (the largest
unsigned 16-bit value), `weight = 0`, `width = 0`, type `UNKNOWN`, the
`PARAM`, `RANGE` and `SPILL` flags clear, and only the `ACTIVE` flag set. -/
theorem C9_node_default_values :
    Node.new.max_vreg = 65535 ∧ Node.new.weight = 0 ∧ Node.new.width = 0 ∧
    Node.new.type = RegisterType.UNKNOWN ∧ Node.new.is_param = false ∧
    Node.new.is_range = false ∧ Node.new.is_spilt = false ∧
    Node.new.is_active = true := by
  refine ⟨?_, rfl, rfl, rfl, rfl, rfl, rfl, rfl⟩
  decide

/-- C1: interference edges are stored in the canonical `(min, max)` form, so
`is_adjacent` and `is_coalesceable` are symmetric in their arguments, and when
a marker is stored for the canonical pair both queries agree with it:
the pair is adjacent and coalesceable exactly when the stored
"not coalesceable" marker is false. -/
theorem C1_edge_queries_symmetric (g : Graph) (u v : Nat) :
    g.is_adjacent u v = g.is_adjacent v u ∧
    g.is_coalesceable u v = g.is_coalesceable v u ∧
    ∀ nc : Bool, tableLookup g.m_adj_matrix (OrderedPair.make u v) = some nc →
      g.is_adjacent u v = true ∧ g.is_adjacent v u = true ∧
      g.is_coalesceable u v = !nc ∧ g.is_coalesceable v u = !nc := by
  have hp := OrderedPair.make_comm u v
  refine ⟨?_, ?_, ?_⟩
  · simp [Graph.is_adjacent, hp]
  · simp [Graph.is_coalesceable, Graph.is_adjacent, hp]
  · intro nc hnc
    have hnc2 : tableLookup g.m_adj_matrix (OrderedPair.make v u) = some nc := by
      rw [← hp]; exact hnc
    refine ⟨?_, ?_, ?_, ?_⟩
    · simp [Graph.is_adjacent, hnc]
    · simp [Graph.is_adjacent, hnc2]
    · simp [Graph.is_coalesceable, Graph.is_adjacent, hnc]
    · simp [Graph.is_coalesceable, Graph.is_adjacent, hnc2]

/-- Witness for C1 at a concrete graph: the pair (1, 2) is stored with marker
"not coalesceable", and both query orders agree with it. -/
theorem C1_witness :
    tableLookup gSample.m_adj_matrix (OrderedPair.make 1 2) = some true ∧
    (gSample.is_adjacent 1 2 = true ∧ gSample.is_adjacent 2 1 = true ∧
      gSample.is_coalesceable 1 2 = !true ∧
      gSample.is_coalesceable 2 1 = !true) :=
  ⟨by decide, (C1_edge_queries_symmetric gSample 1 2).2.2 true (by decide)⟩

/-- C2: `is_coalesceable(u, v)` returns true exactly when no edge between `u`
and `v` exists or the stored edge is marked coalesceable, and returns false
exactly when an edge marked not coalesceable exists. -/
theorem C2_is_coalesceable_characterization (g : Graph) (u v : Nat) :
    (g.is_coalesceable u v = true ↔
      (g.is_adjacent u v = false ∨
        tableLookup g.m_adj_matrix (OrderedPair.make u v) = some false)) ∧
    (g.is_coalesceable u v = false ↔
      tableLookup g.m_adj_matrix (OrderedPair.make u v) = some true) := by
  rcases h : tableLookup g.m_adj_matrix (OrderedPair.make u v) with _ | b
  · simp [Graph.is_coalesceable, Graph.is_adjacent, h]
  · cases b <;> simp [Graph.is_coalesceable, Graph.is_adjacent, h]

/-- Witness for C2 at a concrete graph: the stored non-coalesceable edge
(1, 2) makes the query false, the absent edge (0, 2) makes it true. -/
theorem C2_witness :
    (gSample.is_coalesceable 1 2 = false ↔
      tableLookup gSample.m_adj_matrix (OrderedPair.make 1 2) = some true) ∧
    (gSample.is_coalesceable 0 2 = true ↔
      (gSample.is_adjacent 0 2 = false ∨
        tableLookup gSample.m_adj_matrix (OrderedPair.make 0 2) = some false)) :=
  ⟨(C2_is_coalesceable_characterization gSample 1 2).2,
   (C2_is_coalesceable_characterization gSample 0 2).1⟩

/-- C8: `get_liveness` returns the stored liveness snapshot for an
instruction registered in the range-liveness table (keys there are unique,
as in `unordered_map`), and fails — modelled as `none`, the image of the
`std::out_of_range` the C++ `at` raises — for an instruction that was never
registered. -/
theorem C8_get_liveness_contract (g : Graph) (insn : Nat) (d : List Nat) :
    ((keysOf g.m_range_liveness).Nodup → (insn, d) ∈ g.m_range_liveness →
      g.get_liveness insn = some d) ∧
    (insn ∉ keysOf g.m_range_liveness → g.get_liveness insn = none) := by
  constructor
  · intro hnd hmem
    exact tableLookup_of_mem _ _ _ hnd hmem
  · intro habs
    exact tableLookup_eq_none _ _ habs

/-- Witness for C8 at a concrete graph: instruction 10 is registered and its
snapshot is returned; instruction 99 is not and the query fails. -/
theorem C8_witness :
    ((keysOf gSample.m_range_liveness).Nodup ∧
      (10, [0, 1]) ∈ gSample.m_range_liveness ∧
      99 ∉ keysOf gSample.m_range_liveness) ∧
    gSample.get_liveness 10 = some [0, 1] ∧
    gSample.get_liveness 99 = none :=
  ⟨⟨by decide, by decide, by decide⟩,
   (C8_get_liveness_contract gSample 10 [0, 1]).1 (by decide) (by decide),
   (C8_get_liveness_contract gSample 99 [0, 1]).2 (by decide)⟩

/-- C5: `RangeSet::emplace` is idempotent — re-inserting a contained
instruction is a no-op, so the vector (the deterministic iteration sequence)
and the size are unchanged — and a fresh instruction is appended at the end
of the iteration sequence, preserving first-insertion order. -/
lemma RangeSet.emplace_of_contains (s : RangeSet) (i : Nat)
    (h : s.contains i = true) : s.emplace i = s := by
  simp [RangeSet.emplace, h]

theorem C5_rangeset_emplace (s : RangeSet) (i : Nat) :
    (s.emplace i).emplace i = s.emplace i ∧
    (s.contains i = true → s.emplace i = s) ∧
    (s.contains i = false →
      (s.emplace i).m_range_vec = s.m_range_vec ++ [i] ∧
      (s.emplace i).size = s.size + 1) := by
  cases hc : s.contains i with
  | true =>
    have hemp : s.emplace i = s := RangeSet.emplace_of_contains s i hc
    refine ⟨?_, fun _ => hemp, fun hfc => ?_⟩
    · simp only [hemp]
    · cases hfc
  | false =>
    have hstep : s.emplace i = ⟨s.m_range_vec ++ [i], i :: s.m_range_set⟩ := by
      simp [RangeSet.emplace, hc]
    have hcontains : (s.emplace i).contains i = true := by
      rw [hstep]
      simp [RangeSet.contains]
    refine ⟨?_, fun htc => ?_, fun _ => ⟨?_, ?_⟩⟩
    · exact RangeSet.emplace_of_contains _ _ hcontains
    · cases htc
    · rw [hstep]
    · simp [RangeSet.size, hstep]

/-- Witness for C5: inserting 5 into the empty set appends it; a second
insertion changes nothing. -/
theorem C5_witness :
    RangeSet.empty.contains 5 = false ∧
    (RangeSet.empty.emplace 5).emplace 5 = RangeSet.empty.emplace 5 ∧
    (RangeSet.empty.emplace 5).m_range_vec = RangeSet.empty.m_range_vec ++ [5] ∧
    (RangeSet.empty.emplace 5).size = RangeSet.empty.size + 1 :=
  ⟨by decide, (C5_rangeset_emplace RangeSet.empty 5).1,
   ((C5_rangeset_emplace RangeSet.empty 5).2.2 (by decide)).1,
   ((C5_rangeset_emplace RangeSet.empty 5).2.2 (by decide)).2⟩

lemma removeTransform_fst (r : Nat) (p : Nat × Node) :
    (removeTransform r p).1 = p.1 := by
  by_cases h : p.1 = r <;> simp [removeTransform, h]

lemma removeTransform_idem (r : Nat) (p : Nat × Node) :
    removeTransform r (removeTransform r p) = removeTransform r p := by
  obtain ⟨k, n⟩ := p
  by_cases h : k = r
  · simp [removeTransform, h]
  · simp [removeTransform, h, List.filter_filter]

/-- C4: `remove_node(r)` keeps the node table keys (the record for `r` stays
in the table), clears the `ACTIVE` flag on `r`, leaves `r` outside
`active_nodes()`, removes `r` from the adjacency list of every remaining
active node, and is idempotent. -/
theorem C4_remove_node_spec (g : Graph) (r : Nat) :
    keysOf (g.remove_node r).m_nodes = keysOf g.m_nodes ∧
    (∀ p ∈ (g.remove_node r).m_nodes, p.1 = r → p.2.is_active = false) ∧
    (∀ p ∈ (g.remove_node r).active_nodes, p.1 ≠ r) ∧
    (∀ p ∈ (g.remove_node r).active_nodes, r ∉ p.2.m_adjacent) ∧
    (g.remove_node r).remove_node r = g.remove_node r := by
  have hcomp : removeTransform r ∘ removeTransform r = removeTransform r :=
    funext (removeTransform_idem r)
  have hinact : ∀ p ∈ (g.remove_node r).m_nodes, p.1 = r →
      p.2.is_active = false := by
    intro p hp hpr
    obtain ⟨q, hq, rfl⟩ := List.mem_map.mp hp
    have hq1 : q.1 = r := by rw [← removeTransform_fst r q]; exact hpr
    simp [removeTransform, hq1, Node.is_active]
  refine ⟨?_, hinact, ?_, ?_, ?_⟩
  · have h : Prod.fst ∘ removeTransform r = Prod.fst :=
      funext (removeTransform_fst r)
    simp [Graph.remove_node, keysOf, List.map_map, h]
  · intro p hp hpr
    have hmem := List.mem_filter.mp hp
    have := hinact p hmem.1 hpr
    rw [this] at hmem
    cases hmem.2
  · intro p hp
    have hmem := List.mem_filter.mp hp
    obtain ⟨q, hq, rfl⟩ := List.mem_map.mp hmem.1
    by_cases hq1 : q.1 = r
    · have := hinact _ hmem.1 (by rw [removeTransform_fst r q]; exact hq1)
      rw [this] at hmem
      cases hmem.2
    · intro hcontra
      have : (removeTransform r q).2.m_adjacent =
          q.2.m_adjacent.filter (fun x => decide (x ≠ r)) := by
        simp [removeTransform, hq1]
      rw [this] at hcontra
      have := (List.mem_filter.mp hcontra).2
      simp at this
  · simp [Graph.remove_node, List.map_map, hcomp]

/-- Witness for C4 at a concrete graph: after removing register 1, node 2
stays active with 1 gone from its adjacency list, and a second removal is a
no-op. -/
theorem C4_witness :
    ((2, Node.new) ∈ (gSample.remove_node 1).active_nodes) ∧
    (2 : Nat) ≠ 1 ∧ (1 : Nat) ∉ Node.new.m_adjacent ∧
    (gSample.remove_node 1).remove_node 1 = gSample.remove_node 1 :=
  ⟨by decide,
   (C4_remove_node_spec gSample 1).2.2.1 (2, Node.new) (by decide),
   (C4_remove_node_spec gSample 1).2.2.2.1 (2, Node.new) (by decide),
   (C4_remove_node_spec gSample 1).2.2.2.2⟩

/-- C10: for unsigned 32-bit values with `b > 0` and `a + b - 1` in range (no
wraparound), `div_ceil(a, b)` computes the ceiling of `a / b`. -/
theorem C10_div_ceil_is_ceiling (a b : Nat) (hb : 0 < b)
    (hov : a + b - 1 < 2 ^ 32) :
    (div_ceil a b : ℤ) = ⌈(a : ℚ) / (b : ℚ)⌉ := by
  have hred : div_ceil a b = (a + b - 1) / b := by
    unfold div_ceil
    have h1 : a + b + (2 ^ 32 - 1) = (a + b - 1) + 2 ^ 32 := by omega
    rw [h1, Nat.add_mod_right, Nat.mod_eq_of_lt hov]
  set z := (a + b - 1) / b with hz
  have hup : z * b ≤ a + b - 1 := Nat.div_mul_le_self _ _
  have hlow : a + b - 1 < b * z + b := by
    have key : ∀ m rr : Nat, m + rr = a + b - 1 → rr < b → a + b - 1 < m + b := by
      intro m rr h1 h2
      omega
    exact key (b * z) ((a + b - 1) % b) (Nat.div_add_mod _ _) (Nat.mod_lt _ hb)
  have hle : a ≤ z * b := by
    have key2 : ∀ m : Nat, a + b - 1 < m + b → a ≤ m := by
      intro m hm
      omega
    exact key2 (z * b) (by rw [Nat.mul_comm]; exact hlow)
  have hlt : z * b < a + b := by
    have key3 : ∀ m : Nat, m ≤ a + b - 1 → m < a + b := by
      intro m hm
      omega
    exact key3 _ hup
  have hbQ : (0 : ℚ) < b := by exact_mod_cast hb
  rw [hred]
  have h1 : (((z : ℤ) : ℚ)) - 1 < (a : ℚ) / b := by
    rw [lt_div_iff₀ hbQ]
    have hq : (z : ℚ) * b < (a : ℚ) + b := by exact_mod_cast hlt
    push_cast
    nlinarith [hq]
  have h2 : (a : ℚ) / b ≤ ((z : ℤ) : ℚ) := by
    rw [div_le_iff₀ hbQ]
    have hq : (a : ℚ) ≤ (z : ℚ) * b := by exact_mod_cast hle
    push_cast
    linarith
  exact (Int.ceil_eq_iff.mpr ⟨h1, h2⟩).symm

/-- Witness for C10: `div_ceil 7 2 = ⌈7 / 2⌉ = 4`. -/
theorem C10_witness :
    ((0 : Nat) < 2 ∧ 7 + 2 - 1 < 2 ^ 32) ∧
    (div_ceil 7 2 : ℤ) = ⌈(7 : ℚ) / (2 : ℚ)⌉ :=
  ⟨⟨by decide, by decide⟩, C10_div_ceil_is_ceiling 7 2 (by decide) (by decide)⟩

/-- The active flags of `ns'` are dominated by those of `ns`: any register
active in `ns'` was already active in `ns` (reading through the node table,
with the default node for absent keys). -/
def nodesActiveLE (ns ns' : List (Nat × Node)) : Prop :=
  ∀ k, ((tableLookup ns' k).getD Node.new).m_active = true →
    ((tableLookup ns k).getD Node.new).m_active = true

lemma nodesActiveLE_refl (ns : List (Nat × Node)) : nodesActiveLE ns ns :=
  fun _ h => h

lemma nodesActiveLE_trans {a b c : List (Nat × Node)}
    (h1 : nodesActiveLE a b) (h2 : nodesActiveLE b c) : nodesActiveLE a c :=
  fun k h => h1 k (h2 k h)

lemma mapNode_nodesActiveLE (ns : List (Nat × Node)) (k0 : Nat)
    (f : Node → Node) (hf : ∀ n : Node, (f n).m_active = true → n.m_active = true) :
    nodesActiveLE ns (mapNode ns k0 f) := by
  intro k h
  rw [tableLookup_mapNode] at h
  by_cases hk : k = k0
  · rw [if_pos hk] at h
    cases hl : tableLookup ns k with
    | none => rfl
    | some n =>
      rw [hl] at h
      simp only [Option.map_some', Option.getD_some] at h
      exact hf n h
  · rw [if_neg hk] at h
    exact h

lemma foldl_combineNodesStep_LE (u : Nat) (l : List Nat) :
    ∀ ns, nodesActiveLE ns (List.foldl (combineNodesStep u) ns l) := by
  induction l with
  | nil => intro ns; exact nodesActiveLE_refl ns
  | cons w rest ih =>
    intro ns
    rw [List.foldl_cons]
    refine nodesActiveLE_trans ?_ (ih _)
    unfold combineNodesStep
    by_cases hw : w = u
    · rw [if_pos hw]
      exact nodesActiveLE_refl ns
    · rw [if_neg hw]
      apply mapNode_nodesActiveLE
      intro n hn
      by_cases hm : u ∈ n.m_adjacent <;> simp [hm] at hn <;> exact hn

lemma combineNodes_activeLE (g : Graph) (u v : Nat) :
    nodesActiveLE g.m_nodes (combineNodes g u v) := by
  have h1 : nodesActiveLE g.m_nodes
      (mapNode g.m_nodes u
        (fun n =>
          { n with m_adjacent := combineAdjFold u n.m_adjacent (g.adjacentOf v) })) :=
    mapNode_nodesActiveLE _ _ _ (fun n hn => hn)
  have h2 := foldl_combineNodesStep_LE u (g.adjacentOf v)
      (mapNode g.m_nodes u
        (fun n =>
          { n with m_adjacent := combineAdjFold u n.m_adjacent (g.adjacentOf v) }))
  unfold combineNodes
  exact nodesActiveLE_trans (nodesActiveLE_trans h1 h2)
    (mapNode_nodesActiveLE _ _ _ (fun n hn => by cases hn))

lemma tableLookup_map_removeTransform (l : List (Nat × Node)) (r k : Nat) :
    tableLookup (l.map (removeTransform r)) k =
      (tableLookup l k).map (fun n =>
        if k = r then { n with m_active := false }
        else { n with m_adjacent := n.m_adjacent.filter (fun x => decide (x ≠ r)) }) := by
  induction l with
  | nil => rfl
  | cons p rest ih =>
    obtain ⟨a, n⟩ := p
    by_cases hak : a = r
    · have hh : removeTransform r (a, n) = (a, { n with m_active := false }) := by
        simp [removeTransform, hak]
      rw [List.map_cons, hh]
      by_cases hk : a = k
      · subst hk
        simp [tableLookup, hak]
      · simp [tableLookup, hk, ih]
    · have hh : removeTransform r (a, n) =
          (a, { n with m_adjacent := n.m_adjacent.filter (fun x => decide (x ≠ r)) }) := by
        simp [removeTransform, hak]
      rw [List.map_cons, hh]
      by_cases hk : a = k
      · subst hk
        simp [tableLookup, hak]
      · simp [tableLookup, hk, ih]

/-- C6: a freshly created node starts with `ACTIVE` set, and neither
`remove_node` nor `combine` ever turns the flag back on: a register active
after either operation was already active before it. -/
theorem C6_active_flag_monotone (g : Graph) (u v r k : Nat) :
    Node.new.is_active = true ∧
    (((g.remove_node r).nodeOf k).is_active = true →
      (g.nodeOf k).is_active = true) ∧
    (((g.combine u v).nodeOf k).is_active = true →
      (g.nodeOf k).is_active = true) := by
  refine ⟨rfl, ?_, ?_⟩
  · intro h
    unfold Graph.nodeOf at h ⊢
    have hmn : (g.remove_node r).m_nodes = g.m_nodes.map (removeTransform r) := rfl
    rw [hmn, tableLookup_map_removeTransform] at h
    cases hl : tableLookup g.m_nodes k with
    | none => rfl
    | some n =>
      rw [hl] at h
      simp only [Option.map_some', Option.getD_some] at h
      by_cases hk : k = r
      · rw [if_pos hk] at h
        cases h
      · rw [if_neg hk] at h
        exact h
  · intro h
    unfold Graph.nodeOf at h ⊢
    have hmn : (g.combine u v).m_nodes = combineNodes g u v := rfl
    rw [hmn] at h
    exact combineNodes_activeLE g u v k h

/-- Witness for C6: in the sample graph, node 0 stays active after removing
node 1, node 2 stays active after coalescing 1 into 0, and both implications
recover that those nodes were active beforehand. -/
theorem C6_witness :
    (((gSample.remove_node 1).nodeOf 0).is_active = true ∧
      ((gSample.combine 0 1).nodeOf 2).is_active = true) ∧
    (Node.new.is_active = true ∧ (gSample.nodeOf 0).is_active = true ∧
      (gSample.nodeOf 2).is_active = true) :=
  ⟨⟨by decide, by decide⟩,
   ⟨(C6_active_flag_monotone gSample 0 1 1 0).1,
    (C6_active_flag_monotone gSample 0 1 1 0).2.1 (by decide),
    (C6_active_flag_monotone gSample 0 1 1 2).2.2 (by decide)⟩⟩

lemma repointStep_no_self (u v : Nat) (e : Nat × Nat) (acc : List (Nat × Nat))
    (hacc : ∀ x, (x, x) ∉ acc) : ∀ x, (x, x) ∉ repointStep u v e acc := by
  intro x h
  unfold repointStep at h
  by_cases hab : (if e.1 = v then u else e.1) = (if e.2 = v then u else e.2)
  · rw [if_pos hab] at h
    exact hacc x h
  · rw [if_neg hab] at h
    by_cases hmem :
        ((if e.1 = v then u else e.1), (if e.2 = v then u else e.2)) ∈ acc
    · rw [if_pos hmem] at h
      exact hacc x h
    · rw [if_neg hmem] at h
      rcases List.mem_cons.mp h with heq | h2
      · obtain ⟨h1, h2⟩ := Prod.mk.injEq _ _ _ _ ▸ heq
        exact hab (h1 ▸ h2 ▸ rfl)
      · exact hacc x h2

lemma repointStep_mem_mono (u v : Nat) (e : Nat × Nat)
    (acc : List (Nat × Nat)) (p : Nat × Nat) (h : p ∈ acc) :
    p ∈ repointStep u v e acc := by
  unfold repointStep
  split_ifs <;> first | exact h | exact List.mem_cons_of_mem _ h

lemma combineRepoint_no_self (u v : Nat) (l : List (Nat × Nat)) :
    ∀ x, (x, x) ∉ combineRepoint u v l := by
  induction l with
  | nil => intro x h; cases h
  | cons e rest ih =>
    intro x h
    unfold combineRepoint at h
    rw [List.foldr_cons] at h
    exact repointStep_no_self u v e (combineRepoint u v rest) ih x h

lemma mem_combineRepoint (u v : Nat) (l : List (Nat × Nat)) (e : Nat × Nat)
    (hmem : e ∈ l)
    (hne : (if e.1 = v then u else e.1) ≠ (if e.2 = v then u else e.2)) :
    ((if e.1 = v then u else e.1), (if e.2 = v then u else e.2)) ∈
      combineRepoint u v l := by
  induction l with
  | nil => cases hmem
  | cons x rest ih =>
    unfold combineRepoint
    rw [List.foldr_cons]
    rcases List.mem_cons.mp hmem with heq | h2
    · subst heq
      set acc := rest.foldr (repointStep u v) [] with hacc
      unfold repointStep
      rw [if_neg hne]
      by_cases hm :
          ((if e.1 = v then u else e.1), (if e.2 = v then u else e.2)) ∈ acc
      · rw [if_pos hm]
        exact hm
      · rw [if_neg hm]
        exact List.mem_cons_self _ _
    · exact repointStep_mem_mono u v x _ _ (ih h2)

lemma built_no_self_containment {g : Graph} (hb : Built g) :
    ∀ x, (x, x) ∉ g.m_containment_graph := by
  induction hb with
  | empty => intro x h; cases h
  | make_node g r t maxv _ ih =>
    intro x h
    unfold GraphBuilder.make_node at h
    by_cases hr : r ∈ keysOf g.m_nodes
    · rw [if_pos hr] at h
      exact ih x h
    · rw [if_neg hr] at h
      exact ih x h
  | add_edge g u v c _ ih =>
    intro x h
    unfold Graph.add_edge at h
    by_cases huv : u = v
    · rw [if_pos huv] at h
      exact ih x h
    · rw [if_neg huv] at h
      exact ih x h
  | add_containment_edge g u v _ ih =>
    intro x h
    unfold Graph.add_containment_edge at h
    by_cases huv : u = v
    · rw [if_pos huv] at h
      exact ih x h
    · rw [if_neg huv] at h
      by_cases hm : (u, v) ∈ g.m_containment_graph
      · rw [if_pos hm] at h
        exact ih x h
      · rw [if_neg hm] at h
        rcases List.mem_cons.mp h with heq | h2
        · obtain ⟨h1, h2⟩ := Prod.mk.injEq _ _ _ _ ▸ heq
          exact huv (h1 ▸ h2 ▸ rfl)
        · exact ih x h2
  | remove_node g r _ ih =>
    intro x h
    exact ih x h
  | combine g u v hpre _ ih =>
    intro x h
    exact combineRepoint_no_self u v g.m_containment_graph x h

/-- A containment edge from register 3 to register 1, built through the
public construction operations; used to exhibit the directedness of the
containment relation. -/
def gC7 : Graph := Graph.empty.add_containment_edge 3 1

/-- C7: on every graph reachable through the construction and simplification
operations the containment relation has no self-edge — `add_containment_edge`
refuses equal endpoints, and `combine`'s repointing re-inserts through the
same refusal — and the relation is directed: the reachable graph `gC7` has
the edge (3, 1) but not (1, 3). -/
theorem C7_containment_irreflexive_directed (g : Graph) (hb : Built g) :
    (∀ x, g.has_containment_edge x x = false) ∧
    (Built gC7 ∧ gC7.has_containment_edge 3 1 = true ∧
      gC7.has_containment_edge 1 3 = false) := by
  constructor
  · intro x
    unfold Graph.has_containment_edge
    exact decide_eq_false (built_no_self_containment hb x)
  · exact ⟨Built.add_containment_edge Graph.empty 3 1 Built.empty,
      by decide, by decide⟩

/-- Witness for C7: instantiating the theorem at the concrete reachable
graph `gC7`. -/
theorem C7_witness :
    gC7.has_containment_edge 0 0 = false ∧
    gC7.has_containment_edge 3 1 = true :=
  ⟨(C7_containment_irreflexive_directed gC7
      (Built.add_containment_edge Graph.empty 3 1 Built.empty)).1 0,
   (C7_containment_irreflexive_directed gC7
      (Built.add_containment_edge Graph.empty 3 1 Built.empty)).2.2.1⟩

lemma is_coalesceable_false_iff (g : Graph) (u v : Nat) :
    g.is_coalesceable u v = false ↔
      tableLookup g.m_adj_matrix (OrderedPair.make u v) = some true := by
  rcases h : tableLookup g.m_adj_matrix (OrderedPair.make u v) with _ | b
  · simp [Graph.is_coalesceable, Graph.is_adjacent, h]
  · cases b <;> simp [Graph.is_coalesceable, Graph.is_adjacent, h]

lemma tableLookup_mem_keys {α β : Type} [DecidableEq α]
    (l : List (α × β)) (a : α) (h : a ∈ keysOf l) :
    ∃ b, tableLookup l a = some b := by
  induction l with
  | nil => cases h
  | cons p rest ih =>
    obtain ⟨k, x⟩ := p
    by_cases hk : k = a
    · exact ⟨x, by simp [tableLookup, hk]⟩
    · have h2 : a ∈ keysOf rest := by
        rcases List.mem_cons.mp h with heq | h2
        · exact absurd heq.symm hk
        · exact h2
      obtain ⟨b, hb⟩ := ih h2
      exact ⟨b, by simp [tableLookup, hk, hb]⟩

lemma combineMatrixStep_preserves_true (g : Graph) (u v : Nat)
    (m : List (OrderedPair × Bool)) (w : Nat) (e : OrderedPair)
    (h : tableLookup m e = some true) :
    tableLookup (combineMatrixStep g u v m w) e = some true := by
  unfold combineMatrixStep
  by_cases hw : w = u
  · rw [if_pos hw]
    exact h
  · rw [if_neg hw]
    by_cases he : e = OrderedPair.make u w
    · subst he
      rw [tableLookup_setEdge_self, h]
      simp
    · rw [tableLookup_setEdge_other _ _ _ _ he]
      exact h

lemma foldl_combineMatrixStep_preserves_true (g : Graph) (u v : Nat)
    (l : List Nat) :
    ∀ m e, tableLookup m e = some true →
      tableLookup (List.foldl (combineMatrixStep g u v) m l) e = some true := by
  induction l with
  | nil =>
    intro m e h
    exact h
  | cons w rest ih =>
    intro m e h
    rw [List.foldl_cons]
    exact ih _ _ (combineMatrixStep_preserves_true g u v m w e h)

lemma foldl_combineMatrixStep_sets_true (g : Graph) (u v w : Nat)
    (hwu : w ≠ u)
    (hv : tableLookup g.m_adj_matrix (OrderedPair.make v w) = some true) :
    ∀ l, w ∈ l → ∀ m,
      tableLookup (List.foldl (combineMatrixStep g u v) m l)
        (OrderedPair.make u w) = some true := by
  intro l
  induction l with
  | nil => intro hw; cases hw
  | cons x rest ih =>
    intro hw m
    rw [List.foldl_cons]
    rcases List.mem_cons.mp hw with heq | h2
    · subst heq
      have hstep : tableLookup (combineMatrixStep g u v m w)
          (OrderedPair.make u w) = some true := by
        unfold combineMatrixStep
        rw [if_neg hwu, tableLookup_setEdge_self, hv]
        simp
      exact foldl_combineMatrixStep_preserves_true g u v rest _ _ hstep
    · exact ih h2 _

lemma combineAdjFold_mem_mono (u : Nat) (l : List Nat) :
    ∀ init x, x ∈ init → x ∈ combineAdjFold u init l := by
  unfold combineAdjFold
  induction l with
  | nil =>
    intro init x h
    exact h
  | cons w rest ih =>
    intro init x h
    rw [List.foldl_cons]
    apply ih
    by_cases hc : w = u ∨ w ∈ init
    · rw [if_pos hc]
      exact h
    · rw [if_neg hc]
      exact List.mem_append_left _ h

lemma combineAdjFold_mem (u w : Nat) (hwu : w ≠ u) :
    ∀ vAdj, w ∈ vAdj → ∀ uAdj, w ∈ combineAdjFold u uAdj vAdj := by
  intro vAdj
  induction vAdj with
  | nil => intro hw; cases hw
  | cons x rest ih =>
    intro hw uAdj
    unfold combineAdjFold
    rw [List.foldl_cons]
    rcases List.mem_cons.mp hw with heq | h2
    · subst heq
      have hmem : w ∈ (if w = u ∨ w ∈ uAdj then uAdj else uAdj ++ [w]) := by
        by_cases hc : w = u ∨ w ∈ uAdj
        · rcases hc with hcu | hcm
          · exact absurd hcu hwu
          · rw [if_pos (Or.inr hcm)]
            exact hcm
        · rw [if_neg hc]
          exact List.mem_append_right _ (by simp)
      exact combineAdjFold_mem_mono u rest _ w hmem
    · exact ih h2 _

lemma combineAdjFold_nodup (u : Nat) :
    ∀ vAdj uAdj, uAdj.Nodup → (combineAdjFold u uAdj vAdj).Nodup := by
  intro vAdj
  induction vAdj with
  | nil =>
    intro uAdj h
    exact h
  | cons w rest ih =>
    intro uAdj h
    unfold combineAdjFold
    rw [List.foldl_cons]
    apply ih
    by_cases hc : w = u ∨ w ∈ uAdj
    · rw [if_pos hc]
      exact h
    · rw [if_neg hc]
      rw [List.nodup_append]
      refine ⟨h, List.nodup_singleton w, ?_⟩
      intro x hx hx2
      rw [List.mem_singleton] at hx2
      subst hx2
      exact hc (Or.inr hx)

lemma foldl_combineNodesStep_lookup_u (u : Nat) (l : List Nat) :
    ∀ ns, tableLookup (List.foldl (combineNodesStep u) ns l) u =
      tableLookup ns u := by
  induction l with
  | nil =>
    intro ns
    rfl
  | cons w rest ih =>
    intro ns
    rw [List.foldl_cons, ih]
    unfold combineNodesStep
    by_cases hw : w = u
    · rw [if_pos hw]
    · rw [if_neg hw, tableLookup_mapNode, if_neg (fun h => hw h.symm)]

lemma combineNodes_lookup_u (g : Graph) (u v : Nat) (n : Node)
    (hn : tableLookup g.m_nodes u = some n) :
    ∃ n', tableLookup (combineNodes g u v) u = some n' ∧
      n'.m_adjacent = combineAdjFold u n.m_adjacent (g.adjacentOf v) := by
  unfold combineNodes
  rw [tableLookup_mapNode, foldl_combineNodesStep_lookup_u, tableLookup_mapNode,
    if_pos rfl, hn]
  by_cases huv : u = v
  · rw [if_pos huv]
    exact ⟨_, rfl, rfl⟩
  · rw [if_neg huv]
    exact ⟨_, rfl, rfl⟩

lemma combineNodes_lookup_u_none (g : Graph) (u v : Nat)
    (hn : tableLookup g.m_nodes u = none) :
    tableLookup (combineNodes g u v) u = none := by
  unfold combineNodes
  rw [tableLookup_mapNode, foldl_combineNodesStep_lookup_u, tableLookup_mapNode,
    if_pos rfl, hn]
  by_cases huv : u = v
  · rw [if_pos huv]
    rfl
  · rw [if_neg huv]
    rfl

lemma mapNode_inactive_at_key (ns : List (Nat × Node)) (v : Nat) :
    ∀ p ∈ mapNode ns v (fun n => { n with m_active := false }), p.1 = v →
      p.2.m_active = false := by
  intro p hp hpv
  unfold mapNode at hp
  obtain ⟨q, hq, heq⟩ := List.mem_map.mp hp
  by_cases hq1 : q.1 = v
  · rw [if_pos hq1] at heq
    rw [← heq]
  · rw [if_neg hq1] at heq
    rw [← heq] at hpv
    exact absurd hpv hq1

/-- C3: under the precondition `is_coalesceable(u, v)`, `combine(u, v)` gives
`u` every neighbor of `v` (with `u`'s adjacency list staying deduplicated),
merges edge markers as the logical OR of "not coalesceable" — a conflict
recorded on either side against a third register `w` survives — marks `v`
inactive, and repoints containment edges referencing `v` to `u`. -/
theorem C3_combine_spec (g : Graph) (u v w a b : Nat)
    (hpre : g.is_coalesceable u v = true) :
    (u ∈ keysOf g.m_nodes → w ∈ g.adjacentOf v → w ≠ u →
      w ∈ (g.combine u v).adjacentOf u) ∧
    ((g.adjacentOf u).Nodup → ((g.combine u v).adjacentOf u).Nodup) ∧
    (g.is_coalesceable u w = false →
      (g.combine u v).is_coalesceable u w = false) ∧
    (w ∈ g.adjacentOf v → g.is_coalesceable v w = false →
      (g.combine u v).is_coalesceable u w = false) ∧
    (∀ p ∈ (g.combine u v).m_nodes, p.1 = v → p.2.is_active = false) ∧
    (g.has_containment_edge a v = true → a ≠ v → a ≠ u →
      (g.combine u v).has_containment_edge a u = true) ∧
    (g.has_containment_edge v b = true → b ≠ v → b ≠ u →
      (g.combine u v).has_containment_edge u b = true) := by
  have hMat : (g.combine u v).m_adj_matrix = combineMatrix g u v := rfl
  have hNodes : (g.combine u v).m_nodes = combineNodes g u v := rfl
  have hCont : (g.combine u v).m_containment_graph =
      combineRepoint u v g.m_containment_graph := rfl
  refine ⟨?_, ?_, ?_, ?_, ?_, ?_, ?_⟩
  · intro hu hw hwu
    obtain ⟨n, hn⟩ := tableLookup_mem_keys g.m_nodes u hu
    obtain ⟨n', hn', hadj⟩ := combineNodes_lookup_u g u v n hn
    unfold Graph.adjacentOf Graph.nodeOf
    rw [hNodes, hn']
    simp only [Option.getD_some]
    rw [hadj]
    exact combineAdjFold_mem u w hwu (g.adjacentOf v) hw n.m_adjacent
  · intro hnd
    unfold Graph.adjacentOf Graph.nodeOf
    rw [hNodes]
    cases hl : tableLookup g.m_nodes u with
    | none =>
      rw [combineNodes_lookup_u_none g u v hl]
      exact List.nodup_nil
    | some n =>
      obtain ⟨n', hn', hadj⟩ := combineNodes_lookup_u g u v n hl
      rw [hn']
      simp only [Option.getD_some]
      rw [hadj]
      apply combineAdjFold_nodup
      unfold Graph.adjacentOf Graph.nodeOf at hnd
      rw [hl] at hnd
      exact hnd
  · intro hc
    rw [is_coalesceable_false_iff] at hc ⊢
    rw [hMat]
    unfold combineMatrix
    exact foldl_combineMatrixStep_preserves_true g u v (g.adjacentOf v) _ _ hc
  · intro hw hc
    rw [is_coalesceable_false_iff] at hc ⊢
    rw [hMat]
    unfold combineMatrix
    by_cases hwu : w = u
    · exfalso
      subst hwu
      have hfalse : g.is_coalesceable w v = false := by
        rw [is_coalesceable_false_iff, OrderedPair.make_comm w v]
        exact hc
      rw [hfalse] at hpre
      cases hpre
    · exact foldl_combineMatrixStep_sets_true g u v w hwu hc
        (g.adjacentOf v) hw _
  · intro p hp hpv
    have hp2 : p ∈ combineNodes g u v := by
      rw [← hNodes]
      exact hp
    unfold combineNodes at hp2
    exact mapNode_inactive_at_key _ v p hp2 hpv
  · intro hc hav hau
    have hmem : (a, v) ∈ g.m_containment_graph := by
      unfold Graph.has_containment_edge at hc
      exact of_decide_eq_true hc
    have hne : (if (a, v).1 = v then u else (a, v).1) ≠
        (if (a, v).2 = v then u else (a, v).2) := by
      show (if a = v then u else a) ≠ (if v = v then u else v)
      rw [if_neg hav, if_pos rfl]
      exact hau
    have hmem2 := mem_combineRepoint u v g.m_containment_graph (a, v) hmem hne
    have hmem3 : ((if a = v then u else a), (if v = v then u else v)) ∈
        combineRepoint u v g.m_containment_graph := hmem2
    rw [if_neg hav, if_pos rfl] at hmem3
    unfold Graph.has_containment_edge
    rw [hCont]
    exact decide_eq_true hmem3
  · intro hc hbv hbu
    have hmem : (v, b) ∈ g.m_containment_graph := by
      unfold Graph.has_containment_edge at hc
      exact of_decide_eq_true hc
    have hne : (if (v, b).1 = v then u else (v, b).1) ≠
        (if (v, b).2 = v then u else (v, b).2) := by
      show (if v = v then u else v) ≠ (if b = v then u else b)
      rw [if_pos rfl, if_neg hbv]
      exact fun h => hbu h.symm
    have hmem2 := mem_combineRepoint u v g.m_containment_graph (v, b) hmem hne
    have hmem3 : ((if v = v then u else v), (if b = v then u else b)) ∈
        combineRepoint u v g.m_containment_graph := hmem2
    rw [if_pos rfl, if_neg hbv] at hmem3
    unfold Graph.has_containment_edge
    rw [hCont]
    exact decide_eq_true hmem3

/-- Witness for C3: coalescing register 1 into register 0 in the sample graph
transfers 1's neighbor 2 to 0, keeps the 1–2 hard conflict as a 0–2 conflict,
and repoints the containment edge (3, 1) to (3, 0). -/
theorem C3_witness :
    gSample.is_coalesceable 0 1 = true ∧
    (2 ∈ (gSample.combine 0 1).adjacentOf 0 ∧
      (gSample.combine 0 1).is_coalesceable 0 2 = false ∧
      (gSample.combine 0 1).has_containment_edge 3 0 = true) :=
  ⟨by decide,
   (C3_combine_spec gSample 0 1 2 3 0 (by decide)).1 (by decide) (by decide)
     (by decide),
   (C3_combine_spec gSample 0 1 2 3 0 (by decide)).2.2.2.1 (by decide)
     (by decide),
   (C3_combine_spec gSample 0 1 2 3 0 (by decide)).2.2.2.2.2.1 (by decide)
     (by decide) (by decide)⟩
